import Mathlib

/-!
Verification development for `src/top_open_subtitles_sentences.py`:
the chunked frequency-counting pipeline that extracts top sentences and
top words per language from the OpenSubtitles corpus.

Files are modelled as lists of lines (each line a `String`, normally ending
in a newline character), Python `Counter` objects as count functions
`String → Nat` paired with their insertion-ordered key lists, and pandas
data frames of (surface form, count) rows as `List (String × Nat)`.
Machine integers do not overflow here (Python ints are unbounded), so
counts are plain `Nat`.
-/

namespace TopOpenSubtitles

/-- The characters of the script's `linestrip_pattern`: space, slash, hyphen,
en dash, newline, tab, double quote. -/
def linestripPattern : List Char := [' ', '/', '-', '–', '\n', '\t', '\"']

/-- The characters Python `str.strip()` (no argument) removes: ASCII whitespace. -/
def pyWhitespace : List Char := [' ', '\t', '\n', '\r', '\x0b', '\x0c']

/-- The characters stripped by `df[sentence].str.strip(" .?!¿¡")` when building
the sentence-collapse grouping key. -/
def sentenceCollapseChars : List Char := [' ', '.', '?', '!', '¿', '¡']

/-- Python `s.strip(chars)`: remove leading and trailing characters that are
members of `cs`. -/
def stripChars (cs : List Char) (s : String) : String :=
  ⟨((s.toList.dropWhile (fun c => cs.contains c)).reverse.dropWhile
      (fun c => cs.contains c)).reverse⟩

/-- Python `s.strip()` with no argument (used as `k.strip()` on raw keys). -/
def pyStrip (s : String) : String := stripChars pyWhitespace s

/-- `batched(iterable, batch_size)` from the script: repeatedly take
`batch_size` items (`itertools.islice`) until a batch comes back empty.
With `batch_size = 0` the first slice is already empty, so no batch is
ever yielded. -/
def batched (l : List α) (n : Nat) : List (List α) :=
  match l, n with
  | _, 0 => []
  | [], _ => []
  | x :: t, n + 1 => (x :: t).take (n + 1) :: batched ((x :: t).drop (n + 1)) (n + 1)
termination_by l.length
decreasing_by
  simp only [List.length_drop, List.length_cons]
  omega

/-- `chunked_reader(file_path, lines_per_chunk)`: the file is a list of
lines; the reader yields `batched` over those lines. -/
def chunked_reader (lines : List String) (lines_per_chunk : Nat) : List (List String) :=
  batched lines lines_per_chunk

/-- `check_line_count`: number of lines of the file. -/
def check_line_count (lines : List String) : Nat := lines.length

/-- One `d.update(chunk)` step of a `collections.Counter`: every key's count
grows by its number of occurrences in the chunk. -/
def counterUpdate (d : String → Nat) (chunk : List String) : String → Nat :=
  fun k => d k + chunk.count k

/-- The count function of a Counter built by `d = Counter()` followed by one
`d.update(chunk)` per chunk. -/
def counterOfChunks (chunks : List (List String)) : String → Nat :=
  chunks.foldl counterUpdate (fun _ => 0)

/-- First-occurrence key order of a Python dict/Counter fed the given keys in
order: `seen` holds the keys already inserted. -/
def firstKeysAux (seen : List String) : List String → List String
  | [] => []
  | a :: l =>
    if seen.contains a then firstKeysAux seen l
    else a :: firstKeysAux (a :: seen) l

/-- The distinct keys of a Counter fed the given list, in insertion order. -/
def firstKeys (l : List String) : List String := firstKeysAux [] l

/-- Sum of the counts of a frequency table (`sum(d.values())`). -/
def totalCount (t : List (String × Nat)) : Nat := (t.map Prod.snd).sum

/-- A word character of the regex `\w` as exercised by this corpus pipeline's
claims (ASCII alphanumeric or underscore; non-ASCII letters are outside the
character ranges any claim touches). -/
def isWordChar (c : Char) : Bool := c.isAlphanum || c == '_'

/-- A character of the regex class `[a-zA-Zà-üÀ-Ü]` (the script's
`latin_regex`); the two accented ranges are the Latin-1 codepoint intervals
written in the source. -/
def isLatinChar (c : Char) : Bool :=
  (decide ('a' ≤ c) && decide (c ≤ 'z')) || (decide ('A' ≤ c) && decide (c ≤ 'Z'))
    || (decide ('à' ≤ c) && decide (c ≤ 'ü')) || (decide ('À' ≤ c) && decide (c ≤ 'Ü'))

/-- `re.search(r"^[ _\W0-9]+$", k)`: the whole key consists of characters of
the class (space, underscore, non-word, digit) and is non-empty.  (A trailing
newline is itself in the class, so Python's end-of-line `$` needs no special
case here.) -/
def punctOnly (k : String) : Bool :=
  !k.isEmpty && k.toList.all (fun c => c == ' ' || c == '_' || c.isDigit || !isWordChar c)

/-- `re.search(r"^[(\[{]", k)`: the key starts with an opening bracket. -/
def parenStart (k : String) : Bool :=
  match k.toList with
  | [] => false
  | c :: _ => c == '(' || c == '[' || c == '\x7b'

/-- `re.search(r":$", k)`: without `re.MULTILINE`, `$` matches at the end of
the string or just before a final newline, so the key ends in `:` or in
`:` followed by one final newline. -/
def colonEnd (k : String) : Bool :=
  match k.toList.reverse with
  | [] => false
  | c :: rest =>
    c == ':' || (c == '\n' && match rest with | c2 :: _ => c2 == ':' | [] => false)

/-- The script's `non_latin_langs` list. -/
def non_latin_langs : List String :=
  ["ar", "bg", "bn", "el", "fa", "he", "hi", "hy", "ja", "ka",
   "kk", "ko", "mk", "ml", "ru", "si", "ta", "te", "th", "uk",
   "ur", "ze_zh", "zh_cn", "zh_tw"]

/-- The combined sentence-mode noise pattern of `parsedfile_to_top_sentences`:
punctuation/number-only keys, keys starting with an opening parenthesis,
keys ending with a colon, and (for non-Latin-script languages) keys
containing a Latin character. -/
def noiseSentence (langcode : String) (k : String) : Bool :=
  punctOnly k || parenStart k || colonEnd k
    || (non_latin_langs.contains langcode && k.toList.any isLatinChar)

/-- The combined word-mode noise pattern of `parsedfile_to_top_words`. -/
def noiseWord (langcode : String) (k : String) : Bool :=
  punctOnly k || (non_latin_langs.contains langcode && k.toList.any isLatinChar)

/-- `d = Counter({k:v for (k, v) in d.items() if (not re.search(pattern, k))})`
in sentence mode. -/
def noiseFilterSentences (langcode : String) (t : List (String × Nat)) :
    List (String × Nat) :=
  t.filter (fun kv => !noiseSentence langcode kv.1)

/-- The same removal in word mode. -/
def noiseFilterWords (langcode : String) (t : List (String × Nat)) :
    List (String × Nat) :=
  t.filter (fun kv => !noiseWord langcode kv.1)

/-- The script's `min_count` setting. -/
def min_count : Nat := 5

/-- The script's `lines_per_chunk` setting. -/
def lines_per_chunk : Nat := 10000000

/-- The script's `n_top_sentences` setting. -/
def n_top_sentences : Nat := 10000

/-- The script's `n_top_words` setting. -/
def n_top_words : Nat := 30000

/-- The script's `lowcase_cutoff` setting (a share, modelled as a rational). -/
def lowcase_cutoff : ℚ := 8 / 100

/-- `if not (min_count == None or min_count == 0): d = {k:v for ... if
v >= min_count}`: the memory-saving threshold applied after the totals are
saved. -/
def min_count_filter (m : Nat) (t : List (String × Nat)) : List (String × Nat) :=
  if m = 0 then t else t.filter (fun kv => decide (m ≤ kv.2))

/-- Stable insertion into a count-descending list: the new row goes after
every existing row with a strictly larger or equal count, which is how a
stable descending sort orders rows that tie on count. -/
def insertByCountDesc (x : String × Nat) :
    List (String × Nat) → List (String × Nat)
  | [] => [x]
  | y :: ys => if x.2 < y.2 then y :: insertByCountDesc x ys else x :: y :: ys

/-- Stable sort of table rows by count, descending: the model of
`Counter.most_common()`, which Python implements with the stable `sorted`. -/
def sortByCountDesc : List (String × Nat) → List (String × Nat)
  | [] => []
  | x :: xs => insertByCountDesc x (sortByCountDesc xs)

/-- Stable insertion into a count-ascending list: the new row goes after
every row with a strictly smaller count and before rows that tie with it,
as in a stable ascending sort. -/
def insertByCountAsc (x : String × Nat) :
    List (String × Nat) → List (String × Nat)
  | [] => [x]
  | y :: ys => if y.2 < x.2 then y :: insertByCountAsc x ys else x :: y :: ys

/-- Stable sort of table rows by count, ascending: the order of the
ascending argsort pandas computes first (numpy falls back to a stable
insertion sort on the small per-run partitions this pipeline sorts). -/
def sortByCountAsc : List (String × Nat) → List (String × Nat)
  | [] => []
  | x :: xs => insertByCountAsc x (sortByCountAsc xs)

/-- `df.sort_values(by=[count], ascending=False)`: pandas computes the
ascending argsort and applies the reversed indexer, so rows that tie on
count come out in reversed input order. -/
def sort_values_desc (t : List (String × Nat)) : List (String × Nat) :=
  (sortByCountAsc t).reverse

/-- Insertion into a count-descending list that places the new row after
every row with a larger or equal count: what reversing a stable ascending
insertion looks like from the front. -/
def insertAfterTies (x : String × Nat) :
    List (String × Nat) → List (String × Nat)
  | [] => [x]
  | y :: ys => if y.2 < x.2 then x :: y :: ys else y :: insertAfterTies x ys

/-- Stable insertion into an ascending list of strings. -/
def insertStrAsc (x : String) : List String → List String
  | [] => [x]
  | y :: ys => if y < x then y :: insertStrAsc x ys else x :: y :: ys

/-- Ascending sort of group keys: `df.groupby(key)` enumerates groups with
their keys sorted ascending (`sort=True` is the pandas default). -/
def sortStrAsc : List String → List String
  | [] => []
  | x :: xs => insertStrAsc x (sortStrAsc xs)

/-- The grouping key of `collapse_if_only_ending_differently`:
`df[sentence].str.strip(" .?!¿¡")`. -/
def sentenceGroupKey (s : String) : String := stripChars sentenceCollapseChars s

/-- The rows of a table whose derived grouping key is `g`, in table order. -/
def groupMembers (key : String → String) (g : String)
    (t : List (String × Nat)) : List (String × Nat) :=
  t.filter (fun kv => key kv.1 == g)

/-- The shared shape of `collapse_if_only_ending_differently` and of
`collapse_case` at `cutoff == 0.5`: `sort_values` by count descending,
group by the derived key, aggregate each group to (first member's surface
form, sum of counts), then `sort_values` by count descending again. -/
def collapseByKey (key : String → String) (t : List (String × Nat)) :
    List (String × Nat) :=
  let s := sort_values_desc t
  let gs := sortStrAsc (firstKeys (s.map (fun kv => key kv.1)))
  sort_values_desc (gs.map (fun g =>
    (((groupMembers key g s).headD ("", 0)).1, totalCount (groupMembers key g s))))

/-- `collapse_if_only_ending_differently(df, "sentence", "count")`. -/
def collapse_if_only_ending_differently (t : List (String × Nat)) :
    List (String × Nat) :=
  collapseByKey sentenceGroupKey t

/-- `df[count]/group_count > cutoff` for one row, with exact rational
arithmetic in place of Python floats. -/
def shareGT (c total : Nat) (cutoff : ℚ) : Bool :=
  decide (cutoff < (c : ℚ) / (total : ℚ))

/-- `df.loc[share.idxmax(), word]`: the surface form of the first row whose
share of the group total is maximal (`idxmax` returns the first maximum). -/
def idxmaxByShare (total : Nat) : List (String × Nat) → String
  | [] => ""
  | x :: xs =>
    (xs.foldl (fun best kv =>
      if ((best.2 : ℚ) / (total : ℚ)) < ((kv.2 : ℚ) / (total : ℚ)) then kv else best) x).1

/-- `wordcase_by_cutoff(df, word, count, wordlow, cutoff)` on one group whose
shared lowercase form is `low`: if some row is the lowercase form itself and
its share of the group count exceeds the cutoff, the group becomes
(lowercase form, group count); otherwise (first highest-share member's
surface form, group count). -/
def wordcase_by_cutoff (members : List (String × Nat)) (low : String)
    (cutoff : ℚ) : String × Nat :=
  if members.any (fun kv =>
      kv.1 == low && shareGT kv.2 (totalCount members) cutoff) then
    (low, totalCount members)
  else
    (idxmaxByShare (totalCount members) members, totalCount members)

/-- Python `str.lower()` as used by `df[word].str.lower()`, character by
character.  (Case mapping beyond the ASCII range is engine detail the
claims do not exercise.) -/
def pyLower (s : String) : String := ⟨s.toList.map Char.toLower⟩

/-- `collapse_case(df, word, count, wordlow, cutoff)`: at `cutoff == 0.5` the
fast grouped-aggregation path (sort by count, group by lowercase, take first
and sum); otherwise group the rows as they stand by lowercase form and apply
`wordcase_by_cutoff` to each group, then sort by count descending. -/
def collapse_case (t : List (String × Nat)) (cutoff : ℚ) : List (String × Nat) :=
  if cutoff = 1 / 2 then collapseByKey pyLower t
  else
    sort_values_desc
      ((sortStrAsc (firstKeys (t.map (fun kv => pyLower kv.1)))).map (fun g =>
        wordcase_by_cutoff (groupMembers pyLower g t) g cutoff))

/-- The output row `collapse_case` produces for the group whose lowercase
form is `g`: at `cutoff == 0.5` the first member of the count-sorted group
with the group's summed count, otherwise the `wordcase_by_cutoff` result
for the group. -/
def collapse_case_row (t : List (String × Nat)) (cutoff : ℚ) (g : String) :
    String × Nat :=
  if cutoff = 1 / 2 then
    (((groupMembers pyLower g (sort_values_desc t)).headD ("", 0)).1,
      totalCount (groupMembers pyLower g t))
  else wordcase_by_cutoff (groupMembers pyLower g t) g cutoff

/-- Python `' '.join(strings)`. -/
def joinSpace : List String → String
  | [] => ""
  | [s] => s
  | s :: t :: rest => s ++ " " ++ joinSpace (t :: rest)

/-- The loop body and final flush of `join_to_min_length(strings, n)`:
`cur` is `current_words`, `len` is `current_length`. -/
def joinToMinLengthAux (n : Nat) : List String → List String → Nat → List String
  | [], cur, _ => if cur.isEmpty then [] else [joinSpace cur]
  | w :: ws, cur, len =>
    if cur.isEmpty then joinToMinLengthAux n ws [w] w.length
    else if n ≤ len + 1 + w.length then
      joinSpace (cur ++ [w]) :: joinToMinLengthAux n ws [] 0
    else joinToMinLengthAux n ws (cur ++ [w]) (len + 1 + w.length)

/-- `join_to_min_length(strings, n)`: lazily joins the input strings with
single spaces into super-lines of length at least `n` (except possibly the
trailing flush). -/
def join_to_min_length (strings : List String) (n : Nat) : List String :=
  joinToMinLengthAux n strings [] 0

/-- The three values of `source_data_type`. -/
inductive SourceDataType
  | raw
  | text
  | tokenized
deriving DecidableEq

/-- The per-chunk treatment of raw lines in `parsedfile_to_top_sentences`:
`if source_data_type != "raw": lines = [l.strip(linestrip_pattern) for l in
lines]`. -/
def chunkLineKey : SourceDataType → String → String
  | .raw, l => l
  | .text, l => stripChars linestripPattern l
  | .tokenized, l => stripChars linestripPattern l

/-- The value stored for key `k` by a dict comprehension that assigns each
pair in order: the last write wins. -/
def lookupLast (t : List (String × Nat)) (k : String) : Nat :=
  (t.foldl (fun acc kv => if kv.1 == k then some kv.2 else acc) none).getD 0

/-- `d = Counter({f(k): v for (k, v) in d.items()})`: keys appear in first-new-key
order and a colliding later pair overwrites the earlier value. -/
def rekey (f : String → String) (t : List (String × Nat)) : List (String × Nat) :=
  let m := t.map (fun kv => (f kv.1, kv.2))
  (firstKeys (m.map Prod.fst)).map (fun k => (k, lookupLast m k))

/-- What one language run of a pipeline function produces: the rows written
to the per-language output file (if any) and the total-occurrence entry
appended to the cross-language summary table (if any). -/
structure PipelineResult where
  output : Option (List (String × Nat))
  totalEntry : Option Nat
deriving DecidableEq

/-- The per-chunk key streams fed to `d.update` by the sentence loop. -/
def sentenceChunks (sdt : SourceDataType) (lines : List String) (n : Nat) :
    List (List String) :=
  (chunked_reader lines n).map (fun chunk => chunk.map (chunkLineKey sdt))

/-- The sentence Counter after the chunked aggregation loop with chunk size
`n`, as a count function. -/
def aggregateChunks (sdt : SourceDataType) (lines : List String) (n : Nat) :
    String → Nat :=
  counterOfChunks (sentenceChunks sdt lines n)

/-- The sentence frequency table after `d.pop(None, None); d.pop("", None)`:
the Counter's keys in insertion order, the empty key removed, each with its
aggregated count.  (`None` never occurs among keys read from a text file.) -/
def freqTable (sdt : SourceDataType) (lines : List String) (n : Nat) :
    List (String × Nat) :=
  ((firstKeys (sentenceChunks sdt lines n).flatten).filter (fun k => k != "")).map
    (fun k => (k, aggregateChunks sdt lines n k))

/-- The sentence table after noise filtering, the state whose value sum is
saved to `total_counts_sentences_file`. -/
def sentencePrefilter (lines : List String) (langcode : String)
    (sdt : SourceDataType) : List (String × Nat) :=
  noiseFilterSentences langcode (freqTable sdt lines lines_per_chunk)

/-- The sentence table after the memory-saving minimum-count threshold. -/
def sentenceThresholded (lines : List String) (langcode : String)
    (sdt : SourceDataType) : List (String × Nat) :=
  min_count_filter min_count (sentencePrefilter lines langcode sdt)

/-- `if source_data_type == "raw": d = Counter({k.strip(): v ...})`. -/
def sentenceRekeyed (lines : List String) (langcode : String)
    (sdt : SourceDataType) : List (String × Nat) :=
  if sdt = .raw then rekey pyStrip (sentenceThresholded lines langcode sdt)
  else sentenceThresholded lines langcode sdt

/-- The collapsed, ranked sentence table: `d.most_common()` (stable
count-descending order) followed by `collapse_if_only_ending_differently`. -/
def sentenceCollapsed (lines : List String) (langcode : String)
    (sdt : SourceDataType) : List (String × Nat) :=
  collapse_if_only_ending_differently
    (sortByCountDesc (sentenceRekeyed lines langcode sdt))

/-- The tail of the sentence pipeline: drop the language's excluded
sentences, then truncate with `.head(n)`. -/
def rank_and_truncate (excl : List String) (n : Nat)
    (t : List (String × Nat)) : List (String × Nat) :=
  (t.filter (fun kv => !excl.contains kv.1)).take n

/-- `parsedfile_to_top_sentences` for one language: with an empty parsed
file it returns before creating the output file or the summary entry;
otherwise it writes the ranked rows and appends the total surviving count. -/
def parsedfile_to_top_sentences (lines : List String) (langcode : String)
    (sdt : SourceDataType) (excl : List String) : PipelineResult :=
  if check_line_count lines = 0 then ⟨none, none⟩
  else
    ⟨some (rank_and_truncate excl n_top_sentences
            (sentenceCollapsed lines langcode sdt)),
     some (totalCount (sentencePrefilter lines langcode sdt))⟩

/-- The token streams fed to `d.update` by the word loop: the tokenizer
(`tokenize_lines_mp`, here an opaque parameter because spaCy/jieba/MeCab are
external engines) is applied chunk by chunk. -/
def wordChunks (tok : List String → List String) (lines : List String) :
    List (List String) :=
  (chunked_reader lines lines_per_chunk).map tok

/-- The word frequency table after the two `pop`s, as key/count rows. -/
def wordFreqTable (tok : List String → List String) (lines : List String) :
    List (String × Nat) :=
  ((firstKeys (wordChunks tok lines).flatten).filter (fun k => k != "")).map
    (fun k => (k, counterOfChunks (wordChunks tok lines) k))

/-- The word table after noise filtering, the state whose value sum is saved
to `total_counts_words_file`. -/
def wordPrefilter (tok : List String → List String) (lines : List String)
    (langcode : String) : List (String × Nat) :=
  noiseFilterWords langcode (wordFreqTable tok lines)

/-- The word table after the minimum-count threshold. -/
def wordThresholded (tok : List String → List String) (lines : List String)
    (langcode : String) : List (String × Nat) :=
  min_count_filter min_count (wordPrefilter tok lines langcode)

/-- `parsedfile_to_top_words` for one language, with the tokenizer and the
case-collapse cutoff as parameters. -/
def parsedfile_to_top_words (tok : List String → List String)
    (lines : List String) (langcode : String) (cutoff : ℚ) : PipelineResult :=
  if check_line_count lines = 0 then ⟨none, none⟩
  else
    ⟨some ((collapse_case
              (sortByCountDesc (wordThresholded tok lines langcode))
              cutoff).take n_top_words),
     some (totalCount (wordPrefilter tok lines langcode))⟩

/-- The ASCII punctuation characters together with space, underscore and the
decimal digits: the concrete character set the noise-filter claims quantify
over. -/
def pdsChars : List Char :=
  [' ', '_', '0', '1', '2', '3', '4', '5', '6', '7', '8', '9',
   '!', '\"', '#', '$', '%', '&', '\'', '(', ')', '*', '+', ',', '-', '.', '/',
   ':', ';', '<', '=', '>', '?', '@', '[', '\\', ']', '^', '\x60',
   '\x7b', '|', '\x7d', '~']

/-! ### Library: first-occurrence keys -/

/-- `List.contains` on a cons cell, spelled out. -/
theorem contains_cons_eq (a x : String) (l : List String) :
    (a :: l).contains x = (x == a || l.contains x) := by
  cases h : x == a <;> simp [List.contains, List.elem, h]

/-- `List.contains` agrees with membership for strings. -/
theorem contains_eq_true_iff (x : String) (l : List String) :
    l.contains x = true ↔ x ∈ l := by
  simp [List.contains, List.elem_iff]

/-- `firstKeysAux` only looks at which keys are already seen, not at the
order or multiplicity of the `seen` list. -/
theorem firstKeysAux_congr (seen₁ seen₂ : List String)
    (h : ∀ x, seen₁.contains x = seen₂.contains x) (l : List String) :
    firstKeysAux seen₁ l = firstKeysAux seen₂ l := by
  induction l generalizing seen₁ seen₂ with
  | nil => rfl
  | cons a l ih =>
    simp only [firstKeysAux, h a]
    by_cases hc : seen₂.contains a = true
    · rw [if_pos hc, if_pos hc]
      exact ih _ _ h
    · rw [if_neg hc, if_neg hc]
      refine congrArg (List.cons a) (ih _ _ (fun x => ?_))
      rw [contains_cons_eq, contains_cons_eq, h x]

/-- Marking `a` as seen is the same as deleting every later `a` from the
input stream. -/
theorem firstKeysAux_cons_seen (a : String) (seen l : List String) :
    firstKeysAux (a :: seen) l = firstKeysAux seen (l.filter (fun x => x != a)) := by
  induction l generalizing seen with
  | nil => rfl
  | cons b l ih =>
    by_cases hba : b = a
    · subst hba
      have h1 : (b :: seen).contains b = true := by
        rw [contains_cons_eq]; simp
      have h2 : (b != b) = false := by simp
      rw [List.filter_cons, h2, if_neg (by simp), firstKeysAux, if_pos h1, ih]
    · have hba' : (b != a) = true := by simp [bne, hba]
      rw [List.filter_cons, hba', if_pos (by simp), firstKeysAux, firstKeysAux,
        contains_cons_eq]
      have hbne : (b == a) = false := by simp [hba]
      rw [hbne, Bool.false_or]
      by_cases hc : seen.contains b = true
      · rw [if_pos hc, if_pos hc, ih]
      · rw [if_neg hc, if_neg hc]
        refine congrArg (List.cons b) ?_
        rw [firstKeysAux_congr (b :: a :: seen) (a :: b :: seen)
              (fun x => by rw [contains_cons_eq, contains_cons_eq,
                contains_cons_eq, contains_cons_eq]; cases x == a <;>
                cases x == b <;> simp) l, ih (b :: seen)]

/-- Unfolding rule for `firstKeys` on a nonempty list: the head, then the
first keys of the tail with the head's duplicates deleted. -/
theorem firstKeys_cons (a : String) (l : List String) :
    firstKeys (a :: l) = a :: firstKeys (l.filter (fun x => x != a)) := by
  have h0 : ([] : List String).contains a = false := rfl
  rw [firstKeys, firstKeysAux, h0, if_neg (by simp)]
  exact congrArg (List.cons a) (firstKeysAux_cons_seen a [] l)

/-- Membership in `firstKeysAux`: present in the stream and not yet seen. -/
theorem mem_firstKeysAux (x : String) (seen l : List String) :
    x ∈ firstKeysAux seen l ↔ x ∈ l ∧ seen.contains x = false := by
  induction l generalizing seen with
  | nil => simp [firstKeysAux]
  | cons a l ih =>
    simp only [firstKeysAux]
    by_cases hc : seen.contains a = true
    · rw [if_pos hc, ih]
      constructor
      · rintro ⟨hx, hs⟩
        exact ⟨List.mem_cons_of_mem _ hx, hs⟩
      · rintro ⟨hx, hs⟩
        rcases List.mem_cons.1 hx with rfl | hx
        · rw [hc] at hs; cases hs
        · exact ⟨hx, hs⟩
    · rw [if_neg hc, List.mem_cons, ih]
      have hc' : seen.contains a = false := by
        cases h : seen.contains a
        · rfl
        · exact absurd h hc
      constructor
      · rintro (rfl | ⟨hx, hs⟩)
        · exact ⟨List.mem_cons_self _ _, hc'⟩
        · refine ⟨List.mem_cons_of_mem _ hx, ?_⟩
          rw [contains_cons_eq] at hs
          exact (Bool.or_eq_false_iff.1 hs).2
      · rintro ⟨hx, hs⟩
        by_cases hxa : x = a
        · exact Or.inl hxa
        · rcases List.mem_cons.1 hx with rfl | hx
          · exact Or.inl rfl
          · refine Or.inr ⟨hx, ?_⟩
            rw [contains_cons_eq, hs]
            simp [hxa]

/-- A Counter's key list holds exactly the values that were fed to it. -/
theorem mem_firstKeys (x : String) (l : List String) :
    x ∈ firstKeys l ↔ x ∈ l := by
  rw [firstKeys, mem_firstKeysAux]
  simp

/-- `firstKeys` commutes with filtering the stream by a value predicate. -/
theorem firstKeys_filter (p : String → Bool) (l : List String) :
    firstKeys (l.filter p) = (firstKeys l).filter p := by
  match l with
  | [] => rfl
  | a :: l =>
    rw [firstKeys_cons, List.filter_cons]
    by_cases hpa : p a = true
    · rw [hpa, if_pos rfl, firstKeys_cons, List.filter_cons, hpa, if_pos rfl]
      refine congrArg (List.cons a) ?_
      rw [← firstKeys_filter p (l.filter (fun x => x != a)),
        List.filter_filter, List.filter_filter]
      refine congrArg firstKeys (List.filter_congr (fun x _ => ?_))
      cases p x <;> cases x == a <;> simp [bne]
    · have hpa' : p a = false := by
        cases h : p a
        · rfl
        · exact absurd h hpa
      rw [hpa', if_neg (by simp), List.filter_cons, hpa', if_neg (by simp),
        ← firstKeys_filter p (l.filter (fun x => x != a)), List.filter_filter]
      refine congrArg firstKeys (List.filter_congr (fun x _ => ?_)).symm
      cases hpx : p x
      · simp
      · have hxa : (x == a) = false := by
          cases hxaeq : x == a
          · rfl
          · rw [show x = a from by simpa using hxaeq, hpa'] at hpx
            cases hpx
        simp [bne, hxa]
termination_by l.length
decreasing_by
  all_goals
    simp only [List.length_cons]
    exact Nat.lt_succ_of_le (List.length_filter_le _ _)

/-- Splitting a weighted sum over a list by a predicate. -/
theorem sum_map_filter_split {α : Type _} (w : α → Nat) (p : α → Bool)
    (l : List α) :
    ((l.filter p).map w).sum + ((l.filter (fun x => !p x)).map w).sum
      = (l.map w).sum := by
  induction l with
  | nil => rfl
  | cons a l ih =>
    cases hpa : p a <;> simp [List.filter_cons, hpa] <;> omega

/-- Grouping a list by a derived key partitions its weight: summing each
group's weight over the distinct keys recovers the total weight.  This is
the heart of both count conservation (weight 1 per line) and collapse
conservation (weight = row count). -/
theorem partition_sum {α : Type _} (f : α → String) (w : α → Nat) (l : List α) :
    ((firstKeys (l.map f)).map
        (fun g => ((l.filter (fun x => f x == g)).map w).sum)).sum
      = (l.map w).sum := by
  match l with
  | [] => rfl
  | x :: xs =>
    rw [List.map_cons, firstKeys_cons, List.map_cons, List.sum_cons]
    have hmap : (xs.map f).filter (fun s => s != f x)
        = (xs.filter (fun y => f y != f x)).map f := by
      rw [List.filter_map]
      rfl
    have hcongr : ∀ g ∈ firstKeys ((xs.filter (fun y => f y != f x)).map f),
        (((x :: xs).filter (fun y => f y == g)).map w).sum
          = (((xs.filter (fun y => f y != f x)).filter
              (fun y => f y == g)).map w).sum := by
      intro g hg
      rcases List.mem_map.1 ((mem_firstKeys _ _).1 hg) with ⟨y, hy, rfl⟩
      have hyne : (f y != f x) = true := (List.mem_filter.1 hy).2
      have hne : (f x == f y) = false := by
        cases h : f x == f y
        · rfl
        · rw [show f x = f y from by simpa using h] at hyne
          simp at hyne
      have hlist : (x :: xs).filter (fun z => f z == f y)
          = (xs.filter (fun z => f z != f x)).filter (fun z => f z == f y) := by
        rw [List.filter_cons, hne, if_neg (by simp), List.filter_filter]
        refine List.filter_congr (fun z _ => ?_)
        cases hz : f z == f y
        · simp [hz]
        · have hzy : f z = f y := by simpa using hz
          have hzx : (f z != f x) = true := by rw [hzy]; exact hyne
          simp [hz, hzx]
      rw [hlist]
    rw [hmap, List.map_congr_left hcongr,
      partition_sum f w (xs.filter (fun y => f y != f x)),
      List.filter_cons, (by simp : (f x == f x) = true), if_pos rfl,
      List.map_cons, List.sum_cons, List.map_cons, List.sum_cons]
    have hsplit := sum_map_filter_split w (fun y => f y == f x) xs
    have hne_eq : (xs.filter (fun y => !(f y == f x)))
        = (xs.filter (fun y => f y != f x)) := rfl
    rw [hne_eq] at hsplit
    omega
termination_by l.length
decreasing_by
  simp only [List.length_cons]
  exact Nat.lt_succ_of_le (List.length_filter_le _ _)

/-- A list of ones sums to the length. -/
theorem sum_map_one {α : Type _} (l : List α) :
    (l.map (fun _ => (1 : Nat))).sum = l.length := by
  induction l with
  | nil => rfl
  | cons a l ih => simp [ih]; omega

/-- Summing every key's multiplicity over a Counter's distinct keys gives
back the number of items that were counted. -/
theorem sum_count_firstKeys (m : List String) :
    ((firstKeys m).map (fun k => m.count k)).sum = m.length := by
  have h := partition_sum (fun s => s) (fun _ => (1 : Nat)) m
  have hid : m.map (fun s => s) = m := List.map_id' m
  rw [hid] at h
  rw [← sum_map_one m, ← h]
  refine congrArg List.sum (List.map_congr_left (fun k _ => ?_))
  rw [List.count_eq_countP, List.countP_eq_length_filter, ← sum_map_one]

/-- A key table over the distinct keys of `m` surviving a key predicate,
valued by multiplicities in `m`, has total count equal to the number of
surviving items of `m`. -/
theorem totalCount_keyTable (m : List String) (q : String → Bool) :
    totalCount (((firstKeys m).filter q).map (fun k => (k, m.count k)))
      = (m.filter q).length := by
  rw [totalCount, ← firstKeys_filter, List.map_map]
  have hcongr : ∀ k ∈ firstKeys (m.filter q),
      (Prod.snd ∘ fun k => (k, m.count k)) k = (m.filter q).count k := by
    intro k hk
    have hkq : q k = true := (List.mem_filter.1 ((mem_firstKeys _ _).1 hk)).2
    exact (List.count_filter hkq).symm
  rw [List.map_congr_left hcongr]
  exact sum_count_firstKeys (m.filter q)

/-! ### Library: chunked aggregation -/

/-- Folding `Counter.update` over a list of chunks counts occurrences in
the concatenation of the chunks. -/
theorem counterOfChunks_eq (chunks : List (List String)) (k : String) :
    counterOfChunks chunks k = chunks.flatten.count k := by
  suffices h : ∀ d : String → Nat,
      (chunks.foldl counterUpdate d) k = d k + chunks.flatten.count k by
    simpa [counterOfChunks] using h (fun _ => 0)
  induction chunks with
  | nil => intro d; simp
  | cons c cs ih =>
    intro d
    rw [List.foldl_cons, ih, List.flatten_cons, List.count_append]
    simp only [counterUpdate]
    omega

/-- Concatenating the batches of `batched` restores the source, for any
positive batch size. -/
theorem batched_flatten {α : Type _} (l : List α) (n : Nat) (h : 0 < n) :
    (batched l n).flatten = l := by
  match l, n with
  | l, 0 => exact absurd h (by omega)
  | [], n + 1 => simp [batched]
  | x :: t, n + 1 =>
    rw [batched, List.flatten_cons,
      batched_flatten ((x :: t).drop (n + 1)) (n + 1) h,
      List.take_append_drop]
termination_by l.length
decreasing_by
  all_goals
    simp only [List.length_drop, List.length_cons]
    omega

/-- Every batch yielded by `batched` is nonempty. -/
theorem batched_ne_nil {α : Type _} (l : List α) (n : Nat) (b : List α)
    (hb : b ∈ batched l n) : b ≠ [] := by
  match l, n with
  | l, 0 => cases (by simpa [batched] using hb : False)
  | [], n + 1 => cases (by simpa [batched] using hb : False)
  | x :: t, n + 1 =>
    rw [batched] at hb
    rcases List.mem_cons.1 hb with rfl | hb
    · simp
    · exact batched_ne_nil ((x :: t).drop (n + 1)) (n + 1) b hb
termination_by l.length
decreasing_by
  all_goals
    simp only [List.length_drop, List.length_cons]
    omega

/-- Every batch except the last has exactly the target size. -/
theorem batched_dropLast_length {α : Type _} (l : List α) (n : Nat)
    (b : List α) (hb : b ∈ (batched l n).dropLast) : b.length = n := by
  match l, n with
  | l, 0 => cases (by simpa [batched] using hb : False)
  | [], n + 1 => cases (by simpa [batched] using hb : False)
  | x :: t, n + 1 =>
    rw [batched] at hb
    by_cases hrest : batched ((x :: t).drop (n + 1)) (n + 1) = []
    · rw [hrest] at hb
      cases (by simpa using hb : False)
    · have hcons : ((x :: t).take (n + 1)
            :: batched ((x :: t).drop (n + 1)) (n + 1)).dropLast
          = (x :: t).take (n + 1)
            :: (batched ((x :: t).drop (n + 1)) (n + 1)).dropLast := by
        rcases hr : batched ((x :: t).drop (n + 1)) (n + 1) with _ | ⟨r, rs⟩
        · exact absurd hr hrest
        · rfl
      rw [hcons] at hb
      rcases List.mem_cons.1 hb with rfl | hb
      · have hd : (x :: t).drop (n + 1) ≠ [] := by
          intro hnil
          rw [hnil] at hrest
          exact hrest (by simp [batched])
        have hlen : n + 1 < (x :: t).length := by
          rcases Nat.lt_or_ge ((x :: t).length) (n + 2) with h | h
          · exfalso
            exact hd (List.drop_eq_nil_iff.2 (by omega))
          · omega
        rw [List.length_take]
        omega
      · exact batched_dropLast_length ((x :: t).drop (n + 1)) (n + 1) b hb
termination_by l.length
decreasing_by
  all_goals
    simp only [List.length_drop, List.length_cons]
    omega

/-- The chunked sentence Counter counts occurrences among the per-chunk
normalized lines, independent of the chunk size. -/
theorem aggregateChunks_eq (sdt : SourceDataType) (lines : List String)
    (n : Nat) (k : String) (h : 0 < n) :
    aggregateChunks sdt lines n k = (lines.map (chunkLineKey sdt)).count k := by
  rw [aggregateChunks, counterOfChunks_eq, sentenceChunks, chunked_reader,
    ← List.map_flatten, batched_flatten _ _ h]

/-- The processed line stream seen by the sentence Counter, flattened. -/
theorem sentenceChunks_flatten (sdt : SourceDataType) (lines : List String)
    (n : Nat) (h : 0 < n) :
    (sentenceChunks sdt lines n).flatten = lines.map (chunkLineKey sdt) := by
  rw [sentenceChunks, chunked_reader, ← List.map_flatten, batched_flatten _ _ h]

/-! ### Library: stable sorting by count -/

/-- Inserting a row permutes pushing it on the front. -/
theorem insertByCountDesc_perm (x : String × Nat) (l : List (String × Nat)) :
    (insertByCountDesc x l).Perm (x :: l) := by
  induction l with
  | nil => exact List.Perm.refl _
  | cons y ys ih =>
    rw [insertByCountDesc]
    by_cases h : x.2 < y.2
    · rw [if_pos h]
      exact (ih.cons y).trans (List.Perm.swap x y ys)
    · rw [if_neg h]

/-- The stable descending sort permutes its input. -/
theorem sortByCountDesc_perm (l : List (String × Nat)) :
    (sortByCountDesc l).Perm l := by
  induction l with
  | nil => exact List.Perm.refl _
  | cons x xs ih =>
    exact (insertByCountDesc_perm x (sortByCountDesc xs)).trans (ih.cons x)

/-- Inserting into a count-descending list keeps it count-descending. -/
theorem insertByCountDesc_pairwise (x : String × Nat)
    (l : List (String × Nat)) (hl : l.Pairwise (fun a b => b.2 ≤ a.2)) :
    (insertByCountDesc x l).Pairwise (fun a b => b.2 ≤ a.2) := by
  induction l with
  | nil => simp [insertByCountDesc]
  | cons y ys ih =>
    rw [List.pairwise_cons] at hl
    rw [insertByCountDesc]
    by_cases h : x.2 < y.2
    · rw [if_pos h]
      rw [List.pairwise_cons]
      refine ⟨fun z hz => ?_, ih hl.2⟩
      rcases List.mem_cons.1 ((insertByCountDesc_perm x ys).mem_iff.1 hz)
        with rfl | hz
      · omega
      · exact hl.1 z hz
    · rw [if_neg h]
      rw [List.pairwise_cons]
      refine ⟨fun z hz => ?_, List.pairwise_cons.2 hl⟩
      rcases List.mem_cons.1 hz with rfl | hz
      · omega
      · have := hl.1 z hz
        omega

/-- The stable descending sort's output is count-descending. -/
theorem sortByCountDesc_pairwise (l : List (String × Nat)) :
    (sortByCountDesc l).Pairwise (fun a b => b.2 ≤ a.2) := by
  induction l with
  | nil => simp [sortByCountDesc]
  | cons x xs ih => exact insertByCountDesc_pairwise x _ ih

/-- Filtering commutes with stable insertion into a sorted list. -/
theorem filter_insertByCountDesc (p : String × Nat → Bool) (x : String × Nat)
    (l : List (String × Nat)) (hl : l.Pairwise (fun a b => b.2 ≤ a.2)) :
    (insertByCountDesc x l).filter p
      = if p x then insertByCountDesc x (l.filter p) else l.filter p := by
  induction l with
  | nil =>
    cases hpx : p x <;>
      simp [insertByCountDesc, List.filter_cons, hpx]
  | cons y ys ih =>
    rw [List.pairwise_cons] at hl
    rw [insertByCountDesc]
    by_cases h : x.2 < y.2
    · rw [if_pos h]
      cases hpy : p y <;> cases hpx : p x <;>
        simp only [List.filter_cons, hpy, hpx, if_true, if_false,
          Bool.false_eq_true, ite_true, ite_false, ih hl.2]
      · rw [insertByCountDesc, if_pos h]
    · rw [if_neg h]
      cases hpx : p x
      · simp only [List.filter_cons, hpx, Bool.false_eq_true, ite_false]
      · simp only [List.filter_cons, hpx, ite_true]
        cases hpy : p y
        · simp only [Bool.false_eq_true, ite_false]
          rcases hf : ys.filter p with _ | ⟨z, zs⟩
          · rfl
          · have hz : z ∈ ys.filter p := by
              rw [hf]
              exact List.mem_cons_self _ _
            have hzy : z.2 ≤ y.2 := hl.1 z (List.mem_filter.1 hz).1
            rw [insertByCountDesc, if_neg (by omega)]
        · simp only [ite_true]
          rw [insertByCountDesc, if_neg h]

/-- Filtering commutes with the stable descending sort. -/
theorem filter_sortByCountDesc (p : String × Nat → Bool)
    (l : List (String × Nat)) :
    (sortByCountDesc l).filter p = sortByCountDesc (l.filter p) := by
  induction l with
  | nil => rfl
  | cons x xs ih =>
    rw [sortByCountDesc, filter_insertByCountDesc p x _
      (sortByCountDesc_pairwise xs), ih, List.filter_cons]
    cases hpx : p x
    · rw [if_neg (by simp), if_neg (by simp)]
    · rw [if_pos rfl, if_pos rfl, sortByCountDesc]

/-- The ascending string sort permutes its input. -/
theorem insertStrAsc_perm (x : String) (l : List String) :
    (insertStrAsc x l).Perm (x :: l) := by
  induction l with
  | nil => exact List.Perm.refl _
  | cons y ys ih =>
    rw [insertStrAsc]
    by_cases h : y < x
    · rw [if_pos h]
      exact (ih.cons y).trans (List.Perm.swap x y ys)
    · rw [if_neg h]

/-- `sortStrAsc` permutes its input. -/
theorem sortStrAsc_perm (l : List String) : (sortStrAsc l).Perm l := by
  induction l with
  | nil => exact List.Perm.refl _
  | cons x xs ih =>
    exact (insertStrAsc_perm x (sortStrAsc xs)).trans (ih.cons x)

/-! ### Library: the pandas descending sort -/

/-- Inserting a row ascending permutes pushing it on the front. -/
theorem insertByCountAsc_perm (x : String × Nat) (l : List (String × Nat)) :
    (insertByCountAsc x l).Perm (x :: l) := by
  induction l with
  | nil => exact List.Perm.refl _
  | cons y ys ih =>
    rw [insertByCountAsc]
    by_cases h : y.2 < x.2
    · rw [if_pos h]
      exact (ih.cons y).trans (List.Perm.swap x y ys)
    · rw [if_neg h]

/-- Inserting into a count-ascending list keeps it count-ascending. -/
theorem insertByCountAsc_pairwise (x : String × Nat)
    (l : List (String × Nat)) (hl : l.Pairwise (fun a b => a.2 ≤ b.2)) :
    (insertByCountAsc x l).Pairwise (fun a b => a.2 ≤ b.2) := by
  induction l with
  | nil => simp [insertByCountAsc]
  | cons y ys ih =>
    rw [List.pairwise_cons] at hl
    rw [insertByCountAsc]
    by_cases h : y.2 < x.2
    · rw [if_pos h]
      rw [List.pairwise_cons]
      refine ⟨fun z hz => ?_, ih hl.2⟩
      rcases List.mem_cons.1 ((insertByCountAsc_perm x ys).mem_iff.1 hz)
        with rfl | hz
      · omega
      · exact hl.1 z hz
    · rw [if_neg h]
      rw [List.pairwise_cons]
      refine ⟨fun z hz => ?_, List.pairwise_cons.2 hl⟩
      rcases List.mem_cons.1 hz with rfl | hz
      · omega
      · have := hl.1 z hz
        omega

/-- The stable ascending sort's output is count-ascending. -/
theorem sortByCountAsc_pairwise (l : List (String × Nat)) :
    (sortByCountAsc l).Pairwise (fun a b => a.2 ≤ b.2) := by
  induction l with
  | nil => simp [sortByCountAsc]
  | cons x xs ih => exact insertByCountAsc_pairwise x _ ih

/-- `insertAfterTies` commutes with appending a strictly smaller row. -/
theorem insertAfterTies_append (x y : String × Nat) (l : List (String × Nat))
    (h : y.2 < x.2) :
    insertAfterTies x (l ++ [y]) = insertAfterTies x l ++ [y] := by
  induction l with
  | nil => simp [insertAfterTies, h]
  | cons a l' ih =>
    by_cases ha : a.2 < x.2 <;> simp [insertAfterTies, ha, ih]

/-- Inserting after the ties into a list of rows that all reach the new
row's count appends it at the end. -/
theorem insertAfterTies_all_ge (x : String × Nat) (l : List (String × Nat))
    (h : ∀ z ∈ l, x.2 ≤ z.2) : insertAfterTies x l = l ++ [x] := by
  induction l with
  | nil => rfl
  | cons a l' ih =>
    rw [insertAfterTies, if_neg (by
      have := h a (List.mem_cons_self _ _)
      omega)]
    rw [ih (fun z hz => h z (List.mem_cons_of_mem _ hz)), List.cons_append]

/-- Reversing a stable ascending insertion into a sorted list is an
after-the-ties insertion into the reversed list. -/
theorem insertByCountAsc_reverse (x : String × Nat) (l : List (String × Nat))
    (hl : l.Pairwise (fun a b => a.2 ≤ b.2)) :
    (insertByCountAsc x l).reverse = insertAfterTies x l.reverse := by
  induction l with
  | nil => rfl
  | cons y ys ih =>
    rw [List.pairwise_cons] at hl
    rw [insertByCountAsc]
    by_cases h : y.2 < x.2
    · rw [if_pos h, List.reverse_cons, ih hl.2, List.reverse_cons,
        insertAfterTies_append x y ys.reverse h]
    · rw [if_neg h, List.reverse_cons, List.reverse_cons,
        insertAfterTies_all_ge x (ys.reverse ++ [y]) (fun z hz => by
          rcases List.mem_append.1 hz with hz | hz
          · have := hl.1 z (List.mem_reverse.1 hz)
            omega
          · rcases List.mem_singleton.1 hz with rfl
            omega)]

/-- Before-the-ties and after-the-ties insertions commute. -/
theorem insertDesc_insertAfterTies_comm (a x : String × Nat)
    (s : List (String × Nat)) :
    insertByCountDesc a (insertAfterTies x s)
      = insertAfterTies x (insertByCountDesc a s) := by
  induction s with
  | nil =>
    by_cases h : a.2 < x.2 <;> simp [insertAfterTies, insertByCountDesc, h]
  | cons y ys ih =>
    rw [insertAfterTies, insertByCountDesc]
    by_cases h1 : y.2 < x.2
    · rw [if_pos h1]
      by_cases h2 : a.2 < y.2
      · rw [if_pos h2, insertByCountDesc, if_pos (by omega),
          insertByCountDesc, if_pos h2, insertAfterTies, if_pos h1]
      · rw [if_neg h2, insertByCountDesc, insertAfterTies]
        by_cases h3 : a.2 < x.2
        · rw [if_pos h3, if_pos h3, insertByCountDesc, if_neg h2]
        · rw [if_neg h3, if_neg h3, insertAfterTies, if_pos h1]
    · rw [if_neg h1]
      by_cases h2 : a.2 < y.2
      · rw [if_pos h2, insertByCountDesc, if_pos h2, ih, insertAfterTies,
          if_neg h1]
      · rw [if_neg h2, insertByCountDesc, if_neg h2, insertAfterTies,
          if_neg (by omega), insertAfterTies, if_neg h1]

/-- The stable descending insertion sort of a one-row extension inserts the
new row after its ties. -/
theorem sortByCountDesc_append_singleton (l : List (String × Nat))
    (x : String × Nat) :
    sortByCountDesc (l ++ [x]) = insertAfterTies x (sortByCountDesc l) := by
  induction l with
  | nil => rfl
  | cons a l' ih =>
    rw [List.cons_append, sortByCountDesc, ih,
      insertDesc_insertAfterTies_comm, sortByCountDesc]

/-- Reversing the stable ascending sort gives the stable descending sort of
the reversed input: ties end up in reversed input order either way. -/
theorem sortByCountAsc_reverse (l : List (String × Nat)) :
    (sortByCountAsc l).reverse = sortByCountDesc l.reverse := by
  induction l with
  | nil => rfl
  | cons x xs ih =>
    rw [sortByCountAsc,
      insertByCountAsc_reverse x _ (sortByCountAsc_pairwise xs), ih,
      List.reverse_cons, sortByCountDesc_append_singleton]

/-- `sort_values_desc` is the stable descending sort of the reversed
input. -/
theorem sort_values_desc_eq (l : List (String × Nat)) :
    sort_values_desc l = sortByCountDesc l.reverse := by
  rw [sort_values_desc, sortByCountAsc_reverse]

/-- `sort_values_desc` permutes its input. -/
theorem sort_values_desc_perm (l : List (String × Nat)) :
    (sort_values_desc l).Perm l := by
  rw [sort_values_desc_eq]
  exact (sortByCountDesc_perm _).trans (List.reverse_perm l)

/-- `sort_values_desc` emits a count-descending list. -/
theorem sort_values_desc_pairwise (l : List (String × Nat)) :
    (sort_values_desc l).Pairwise (fun a b => b.2 ≤ a.2) := by
  rw [sort_values_desc_eq]
  exact sortByCountDesc_pairwise _

/-- `sort_values_desc` preserves the total count. -/
theorem totalCount_sort_values_desc (l : List (String × Nat)) :
    totalCount (sort_values_desc l) = totalCount l :=
  ((sort_values_desc_perm l).map Prod.snd).sum_eq

/-- Filtering commutes with `sort_values_desc`. -/
theorem filter_sort_values_desc (p : String × Nat → Bool)
    (l : List (String × Nat)) :
    (sort_values_desc l).filter p = sort_values_desc (l.filter p) := by
  rw [sort_values_desc_eq, sort_values_desc_eq, filter_sortByCountDesc,
    List.filter_reverse]

/-! ### Library: first maximal row -/

/-- Sorting preserves the total count. -/
theorem totalCount_sortByCountDesc (l : List (String × Nat)) :
    totalCount (sortByCountDesc l) = totalCount l :=
  ((sortByCountDesc_perm l).map Prod.snd).sum_eq

/-- Both branches of `wordcase_by_cutoff` return the group's summed count. -/
theorem wordcase_by_cutoff_snd (members : List (String × Nat)) (low : String)
    (cutoff : ℚ) :
    (wordcase_by_cutoff members low cutoff).2 = totalCount members := by
  rw [wordcase_by_cutoff]
  cases hany : members.any
      (fun kv => kv.1 == low && shareGT kv.2 (totalCount members) cutoff) <;>
    simp [hany]

/-- Mapping any per-group aggregator whose count component is the group sum
over the distinct group keys conserves the table's total count. -/
theorem groups_totalCount (key : String → String) (s : List (String × Nat))
    (F : String → String × Nat)
    (hF : ∀ g, (F g).2 = totalCount (groupMembers key g s)) :
    totalCount ((sortStrAsc (firstKeys (s.map (fun kv => key kv.1)))).map F)
      = totalCount s := by
  rw [totalCount, List.map_map]
  have h2 : (sortStrAsc (firstKeys (s.map (fun kv => key kv.1)))).map
        (Prod.snd ∘ F)
      = (sortStrAsc (firstKeys (s.map (fun kv => key kv.1)))).map
          (fun g => ((s.filter (fun x => key x.1 == g)).map Prod.snd).sum) := by
    refine List.map_congr_left (fun g _ => ?_)
    rw [show (Prod.snd ∘ F) g = (F g).2 from rfl, hF g, totalCount, groupMembers]
  rw [h2, ((sortStrAsc_perm (firstKeys (s.map (fun kv => key kv.1)))).map
    _).sum_eq]
  exact partition_sum (fun kv => key kv.1) Prod.snd s

/-- `collapseByKey` conserves the total count. -/
theorem collapseByKey_totalCount (key : String → String)
    (t : List (String × Nat)) :
    totalCount (collapseByKey key t) = totalCount t := by
  rw [collapseByKey, totalCount_sort_values_desc,
    groups_totalCount key (sort_values_desc t) _ (fun g => rfl)]
  exact totalCount_sort_values_desc t

/-- `collapseByKey` emits a count-descending table. -/
theorem collapseByKey_pairwise (key : String → String)
    (t : List (String × Nat)) :
    (collapseByKey key t).Pairwise (fun a b => b.2 ≤ a.2) := by
  rw [collapseByKey]
  exact sort_values_desc_pairwise _

/-- `collapse_case` conserves the total count under either cutoff policy. -/
theorem collapse_case_totalCount (t : List (String × Nat)) (cutoff : ℚ) :
    totalCount (collapse_case t cutoff) = totalCount t := by
  rw [collapse_case]
  by_cases h : cutoff = 1 / 2
  · rw [if_pos h]
    exact collapseByKey_totalCount _ t
  · rw [if_neg h, totalCount_sort_values_desc]
    exact groups_totalCount pyLower t _
      (fun g => wordcase_by_cutoff_snd _ g cutoff)

/-- `collapse_case` emits a count-descending table. -/
theorem collapse_case_pairwise (t : List (String × Nat)) (cutoff : ℚ) :
    (collapse_case t cutoff).Pairwise (fun a b => b.2 ≤ a.2) := by
  rw [collapse_case]
  by_cases h : cutoff = 1 / 2
  · rw [if_pos h]
    exact collapseByKey_pairwise _ t
  · rw [if_neg h]
    exact sort_values_desc_pairwise _

/-- Every group key of the input owns a row of `collapseByKey`: the first
member of the count-sorted group as surface form, the group sum as count. -/
theorem collapseByKey_row_mem (key : String → String)
    (t : List (String × Nat)) (g : String)
    (hg : g ∈ t.map (fun kv => key kv.1)) :
    (((groupMembers key g (sort_values_desc t)).headD ("", 0)).1,
        totalCount (groupMembers key g (sort_values_desc t)))
      ∈ collapseByKey key t := by
  rw [collapseByKey]
  refine (sort_values_desc_perm _).mem_iff.2 ?_
  have hg' : g ∈ (sort_values_desc t).map (fun kv => key kv.1) :=
    ((sort_values_desc_perm t).map _).mem_iff.2 hg
  have hgs : g ∈ sortStrAsc
      (firstKeys ((sort_values_desc t).map (fun kv => key kv.1))) :=
    (sortStrAsc_perm _).mem_iff.2 ((mem_firstKeys _ _).2 hg')
  exact List.mem_map_of_mem _ hgs

/-- The pandas-sorted members of a group are `sort_values_desc` of the
group's members in input order; in particular the group's first sorted
member is the last maximal-count member of the input order. -/
theorem groupMembers_sort_values_desc (key : String → String)
    (t : List (String × Nat)) (g : String) :
    groupMembers key g (sort_values_desc t)
      = sort_values_desc (groupMembers key g t) := by
  rw [groupMembers, groupMembers]
  exact filter_sort_values_desc _ t

/-- The count component of `collapse_case_row` is always the group's summed
count. -/
theorem collapse_case_row_snd (t : List (String × Nat)) (cutoff : ℚ)
    (g : String) :
    (collapse_case_row t cutoff g).2 = totalCount (groupMembers pyLower g t) := by
  rw [collapse_case_row]
  by_cases h : cutoff = 1 / 2
  · rw [if_pos h]
  · rw [if_neg h]
    exact wordcase_by_cutoff_snd _ g cutoff

/-- Every lowercase group key of the input owns its `collapse_case_row` in
the output of `collapse_case`, under either cutoff policy. -/
theorem collapse_case_row_mem (t : List (String × Nat)) (cutoff : ℚ)
    (g : String) (hg : g ∈ t.map (fun kv => pyLower kv.1)) :
    collapse_case_row t cutoff g ∈ collapse_case t cutoff := by
  rw [collapse_case_row, collapse_case]
  by_cases h : cutoff = 1 / 2
  · rw [if_pos h, if_pos h]
    have h1 := collapseByKey_row_mem pyLower t g hg
    rw [show totalCount (groupMembers pyLower g (sort_values_desc t))
          = totalCount (groupMembers pyLower g t) from by
        rw [groupMembers_sort_values_desc, totalCount_sort_values_desc]] at h1
    exact h1
  · rw [if_neg h, if_neg h]
    refine (sort_values_desc_perm _).mem_iff.2 ?_
    have hgs : g ∈ sortStrAsc (firstKeys (t.map (fun kv => pyLower kv.1))) :=
      (sortStrAsc_perm _).mem_iff.2 ((mem_firstKeys _ _).2 hg)
    exact List.mem_map_of_mem _ hgs

/-! ### Library: joining to a minimum length -/

/-- Joining two nonempty string lists with a space between the halves. -/
theorem joinSpace_append (m l : List String) (hm : m ≠ []) (hl : l ≠ []) :
    joinSpace (m ++ l) = joinSpace m ++ " " ++ joinSpace l := by
  induction m with
  | nil => cases hm rfl
  | cons x m' ih =>
    cases m' with
    | nil =>
      cases l with
      | nil => cases hl rfl
      | cons y l' => rfl
    | cons y m'' =>
      calc joinSpace ((x :: y :: m'') ++ l)
          = x ++ " " ++ joinSpace ((y :: m'') ++ l) := rfl
        _ = x ++ " " ++ (joinSpace (y :: m'') ++ " " ++ joinSpace l) := by
            rw [ih (by simp)]
        _ = (x ++ " " ++ joinSpace (y :: m'')) ++ " " ++ joinSpace l := by
            simp [String.append_assoc]
        _ = joinSpace (x :: y :: m'') ++ " " ++ joinSpace l := rfl

/-- Length of a one-word extension of a joined group. -/
theorem joinSpace_append_length (m : List String) (w : String) (hm : m ≠ []) :
    (joinSpace (m ++ [w])).length = (joinSpace m).length + 1 + w.length := by
  rw [joinSpace_append m [w] hm (by simp)]
  rw [String.length_append, String.length_append]
  rfl

/-- Once the current group is nonempty, `join_to_min_length` always flushes
at least one super-line. -/
theorem joinToMinLengthAux_ne_nil (n : Nat) (ws : List String) :
    ∀ (cur : List String) (len : Nat), cur ≠ [] →
      joinToMinLengthAux n ws cur len ≠ [] := by
  induction ws with
  | nil =>
    intro cur len hcur
    cases cur with
    | nil => cases hcur rfl
    | cons c cs =>
      rw [show joinToMinLengthAux n [] (c :: cs) len = [joinSpace (c :: cs)]
        from rfl]
      simp
  | cons w ws' ih =>
    intro cur len hcur
    cases cur with
    | nil => cases hcur rfl
    | cons c cs =>
      rw [show joinToMinLengthAux n (w :: ws') (c :: cs) len
            = if n ≤ len + 1 + w.length then
                joinSpace ((c :: cs) ++ [w]) :: joinToMinLengthAux n ws' [] 0
              else joinToMinLengthAux n ws' ((c :: cs) ++ [w])
                (len + 1 + w.length)
          from rfl]
      by_cases hn : n ≤ len + 1 + w.length
      · rw [if_pos hn]
        simp
      · rw [if_neg hn]
        exact ih _ _ (by simp)

/-- Joining the super-lines of `joinToMinLengthAux` with spaces restores the
pending group followed by the remaining words, joined with spaces. -/
theorem joinToMinLengthAux_join (n : Nat) (ws : List String) :
    ∀ (cur : List String) (len : Nat),
      joinSpace (joinToMinLengthAux n ws cur len) = joinSpace (cur ++ ws) := by
  induction ws with
  | nil =>
    intro cur len
    rw [List.append_nil]
    cases cur with
    | nil => rfl
    | cons c cs =>
      rw [show joinToMinLengthAux n [] (c :: cs) len = [joinSpace (c :: cs)]
        from rfl]
      rfl
  | cons w ws' ih =>
    intro cur len
    cases cur with
    | nil =>
      rw [show joinToMinLengthAux n (w :: ws') [] len
            = joinToMinLengthAux n ws' [w] w.length from rfl, ih]
      rfl
    | cons c cs =>
      rw [show joinToMinLengthAux n (w :: ws') (c :: cs) len
            = if n ≤ len + 1 + w.length then
                joinSpace ((c :: cs) ++ [w]) :: joinToMinLengthAux n ws' [] 0
              else joinToMinLengthAux n ws' ((c :: cs) ++ [w])
                (len + 1 + w.length)
          from rfl]
      by_cases hn : n ≤ len + 1 + w.length
      · rw [if_pos hn]
        cases ws' with
        | nil =>
          rw [show joinToMinLengthAux n [] [] 0 = [] from rfl]
          rfl
        | cons w2 ws'' =>
          have hrest : joinToMinLengthAux n (w2 :: ws'') [] 0 ≠ [] := by
            rw [show joinToMinLengthAux n (w2 :: ws'') [] 0
                  = joinToMinLengthAux n ws'' [w2] w2.length from rfl]
            exact joinToMinLengthAux_ne_nil n ws'' [w2] w2.length (by simp)
          rcases hr : joinToMinLengthAux n (w2 :: ws'') [] 0 with _ | ⟨r, rs⟩
          · exact absurd hr hrest
          · have h3 : joinSpace (joinSpace ((c :: cs) ++ [w]) :: r :: rs)
                = joinSpace ((c :: cs) ++ [w]) ++ " " ++ joinSpace (r :: rs) :=
              rfl
            rw [h3, ← hr, ih [] 0, List.nil_append,
              List.append_cons (c :: cs) w (w2 :: ws''),
              joinSpace_append ((c :: cs) ++ [w]) (w2 :: ws'') (by simp)
                (by simp)]
      · rw [if_neg hn, ih ((c :: cs) ++ [w]) _,
          List.append_cons (c :: cs) w ws']

/-- Every super-line flushed inside the loop has length at least `n`; only
the final flush may fall short. -/
theorem joinToMinLengthAux_dropLast_length (n : Nat) (ws : List String) :
    ∀ (cur : List String) (len : Nat),
      (cur ≠ [] → len = (joinSpace cur).length) →
      ∀ s ∈ (joinToMinLengthAux n ws cur len).dropLast, n ≤ s.length := by
  induction ws with
  | nil =>
    intro cur len _ s hs
    cases cur with
    | nil =>
      rw [show joinToMinLengthAux n [] ([] : List String) len = [] from rfl]
        at hs
      cases (by simpa using hs : False)
    | cons c cs =>
      rw [show joinToMinLengthAux n [] (c :: cs) len = [joinSpace (c :: cs)]
        from rfl] at hs
      cases (by simpa using hs : False)
  | cons w ws' ih =>
    intro cur len hinv s hs
    cases cur with
    | nil =>
      rw [show joinToMinLengthAux n (w :: ws') [] len
            = joinToMinLengthAux n ws' [w] w.length from rfl] at hs
      exact ih [w] w.length (fun _ => rfl) s hs
    | cons c cs =>
      rw [show joinToMinLengthAux n (w :: ws') (c :: cs) len
            = if n ≤ len + 1 + w.length then
                joinSpace ((c :: cs) ++ [w]) :: joinToMinLengthAux n ws' [] 0
              else joinToMinLengthAux n ws' ((c :: cs) ++ [w])
                (len + 1 + w.length)
          from rfl] at hs
      by_cases hn : n ≤ len + 1 + w.length
      · rw [if_pos hn] at hs
        have hJ : (joinSpace ((c :: cs) ++ [w])).length = len + 1 + w.length := by
          rw [joinSpace_append_length (c :: cs) w (by simp),
            ← hinv (by simp)]
        rcases hr : joinToMinLengthAux n ws' [] 0 with _ | ⟨r, rs⟩
        · rw [hr] at hs
          cases (by simpa using hs : False)
        · rw [hr] at hs
          have hdl : (joinSpace ((c :: cs) ++ [w]) :: r :: rs).dropLast
              = joinSpace ((c :: cs) ++ [w]) :: (r :: rs).dropLast := rfl
          rw [hdl] at hs
          rcases List.mem_cons.1 hs with rfl | hs
          · omega
          · rw [← hr] at hs
            exact ih [] 0 (fun h => absurd rfl h) s hs
      · rw [if_neg hn] at hs
        refine ih ((c :: cs) ++ [w]) (len + 1 + w.length) (fun _ => ?_) s hs
        rw [joinSpace_append_length (c :: cs) w (by simp), ← hinv (by simp)]

/-! ### Library: noise-filter characters and pipeline stages -/

/-- Every character in the punctuation/digit/underscore/space set lies in
the regex class `[ _\W0-9]`. -/
theorem pds_class : ∀ c ∈ pdsChars,
    (c == ' ' || c == '_' || c.isDigit || !isWordChar c) = true := by decide

/-- A nonempty key made only of punctuation, digits, underscores and spaces
matches the punctuation/number pattern. -/
theorem punctOnly_of_pds (k : String) (hne : k ≠ "")
    (hall : ∀ c ∈ k.toList, c ∈ pdsChars) : punctOnly k = true := by
  rw [punctOnly]
  have h1 : k.isEmpty = false := by
    cases h : k.isEmpty
    · rfl
    · exact absurd ((String.isEmpty_iff k).1 h) hne
  rw [h1]
  simp only [Bool.not_false, Bool.true_and]
  rw [List.all_eq_true]
  intro c hc
  exact pds_class c (hall c hc)

/-- An ASCII Latin letter is in the `latin_regex` class. -/
theorem isLatinChar_of_ascii (c : Char)
    (h : ('a' ≤ c ∧ c ≤ 'z') ∨ ('A' ≤ c ∧ c ≤ 'Z')) : isLatinChar c = true := by
  rw [isLatinChar]
  rcases h with ⟨h1, h2⟩ | ⟨h1, h2⟩ <;>
    rw [decide_eq_true h1, decide_eq_true h2] <;> simp

/-- Total count of a key table restricted to nonempty keys and filtered by a
noise predicate on the key: the number of counted items whose key survives
both. -/
theorem totalCount_prefilter (m : List String) (c : String → Nat)
    (hc : ∀ k, c k = m.count k) (r : String → Bool) :
    totalCount ((((firstKeys m).filter (fun k => k != "")).map
        (fun k => (k, c k))).filter (fun kv => !r kv.1))
      = (m.filter (fun s => s != "" && !r s)).length := by
  have hfun : (fun k => (k, c k)) = (fun k => (k, m.count k)) :=
    funext fun k => by rw [hc k]
  rw [hfun, List.filter_map, List.filter_filter]
  have hq : ∀ a ∈ firstKeys m,
      (((fun kv : String × Nat => !r kv.1) ∘ fun k => (k, m.count k)) a
          && (a != ""))
        = ((a != "") && !r a) :=
    fun a _ => Bool.and_comm _ _
  rw [List.filter_congr hq]
  exact totalCount_keyTable m (fun s => s != "" && !r s)

/-- At the configured floor, the threshold keeps exactly the rows whose
count reaches the floor. -/
theorem mem_min_count_filter (t : List (String × Nat)) (kv : String × Nat) :
    kv ∈ min_count_filter min_count t ↔ kv ∈ t ∧ min_count ≤ kv.2 := by
  rw [min_count_filter, if_neg (by decide)]
  simp [List.mem_filter]

/-! ### The claims -/

/-- C1: the chunked aggregation loop's per-key counts are independent of the
chunk size (any two positive chunk sizes agree on every key), and after the
removal of empty keys the frequency table's value sum equals the number of
corpus lines whose normalized key is non-empty. -/
theorem claim_C1 (sdt : SourceDataType) (lines : List String) (k : String)
    (n₁ n₂ : Nat) (h₁ : 0 < n₁) (h₂ : 0 < n₂) :
    aggregateChunks sdt lines n₁ k = aggregateChunks sdt lines n₂ k
      ∧ totalCount (freqTable sdt lines n₁)
          = ((lines.map (chunkLineKey sdt)).filter (fun s => s != "")).length := by
  constructor
  · rw [aggregateChunks_eq _ _ _ _ h₁, aggregateChunks_eq _ _ _ _ h₂]
  · rw [freqTable, sentenceChunks_flatten _ _ _ h₁]
    have hfun : (fun k => (k, aggregateChunks sdt lines n₁ k))
        = (fun k => (k, (lines.map (chunkLineKey sdt)).count k)) :=
      funext fun k => by rw [aggregateChunks_eq _ _ _ _ h₁]
    rw [hfun]
    exact totalCount_keyTable (lines.map (chunkLineKey sdt)) (fun s => s != "")

/-- Witness for C1 at a concrete corpus and the chunk sizes 1 and 3. -/
theorem claim_C1_witness :
    aggregateChunks .raw ["a\n", "b\n", "a\n", ""] 1 "a\n"
        = aggregateChunks .raw ["a\n", "b\n", "a\n", ""] 3 "a\n"
      ∧ totalCount (freqTable .raw ["a\n", "b\n", "a\n", ""] 1)
          = ((["a\n", "b\n", "a\n", ""].map (chunkLineKey .raw)).filter
              (fun s => s != "")).length :=
  claim_C1 .raw ["a\n", "b\n", "a\n", ""] "a\n" 1 3 (by decide) (by decide)

/-- C8: on an empty corpus both pipelines return early: no output table and
no entry in the total-count summary for that language. -/
theorem claim_C8 (langcode : String) (sdt : SourceDataType)
    (excl : List String) (tok : List String → List String) (cutoff : ℚ) :
    parsedfile_to_top_sentences [] langcode sdt excl
        = ⟨none, none⟩
      ∧ parsedfile_to_top_words tok [] langcode cutoff = ⟨none, none⟩ := by
  constructor <;> rfl

/-- C9: for a positive batch size, concatenating the batches restores the
source, every batch but the last has exactly the target size, no batch is
empty, and an empty source yields zero batches. -/
theorem claim_C9 (l : List String) (n : Nat) (hn : 0 < n) :
    (batched l n).flatten = l
      ∧ (batched l n).dropLast.all (fun b => b.length == n) = true
      ∧ (batched l n).all (fun b => !b.isEmpty) = true
      ∧ batched ([] : List String) n = [] := by
  refine ⟨batched_flatten l n hn, ?_, ?_, ?_⟩
  · rw [List.all_eq_true]
    intro b hb
    simpa using batched_dropLast_length l n b hb
  · rw [List.all_eq_true]
    intro b hb
    simpa using batched_ne_nil l n b hb
  · cases n with
    | zero => cases hn
    | succ n' => simp [batched]

/-- Witness for C9 on a three-line source with batch size 2. -/
theorem claim_C9_witness :
    (batched ["a", "b", "c"] 2).flatten = ["a", "b", "c"]
      ∧ (batched ["a", "b", "c"] 2).dropLast.all (fun b => b.length == 2) = true
      ∧ (batched ["a", "b", "c"] 2).all (fun b => !b.isEmpty) = true
      ∧ batched ([] : List String) 2 = [] :=
  claim_C9 ["a", "b", "c"] 2 (by decide)

/-- C10: the super-lines of `join_to_min_length`, joined with single spaces,
reproduce the input joined with single spaces, and every super-line except
possibly the last has length at least the threshold. -/
theorem claim_C10 (strings : List String) (n : Nat) :
    joinSpace (join_to_min_length strings n) = joinSpace strings
      ∧ (join_to_min_length strings n).dropLast.all
          (fun s => decide (n ≤ s.length)) = true := by
  constructor
  · rw [join_to_min_length, joinToMinLengthAux_join]
    rfl
  · rw [List.all_eq_true]
    intro s hs
    simp only [decide_eq_true_eq]
    exact joinToMinLengthAux_dropLast_length n strings [] 0
      (fun h => absurd rfl h) s hs

/-- C2: both variant collapsers conserve the total volume and sort their
output by summed count descending; and in both collapsers each group's
output row carries exactly the sum of its members' counts: the sentence
group of key `g` owns a row counted by its members' sum, and the word-case
group of lowercase form `g₂` owns its `collapse_case_row`, whose count is
the group's members' sum under either cutoff policy. -/
theorem claim_C2 (t : List (String × Nat)) (cutoff : ℚ) (g g₂ : String)
    (hg : g ∈ t.map (fun kv => sentenceGroupKey kv.1))
    (hg₂ : g₂ ∈ t.map (fun kv => pyLower kv.1)) :
    totalCount (collapse_if_only_ending_differently t) = totalCount t
      ∧ (collapse_if_only_ending_differently t).Pairwise (fun a b => b.2 ≤ a.2)
      ∧ totalCount (collapse_case t cutoff) = totalCount t
      ∧ (collapse_case t cutoff).Pairwise (fun a b => b.2 ≤ a.2)
      ∧ (((groupMembers sentenceGroupKey g (sort_values_desc t)).headD ("", 0)).1,
            totalCount (groupMembers sentenceGroupKey g t))
          ∈ collapse_if_only_ending_differently t
      ∧ (collapse_case_row t cutoff g₂).2
          = totalCount (groupMembers pyLower g₂ t)
      ∧ collapse_case_row t cutoff g₂ ∈ collapse_case t cutoff := by
  refine ⟨?_, ?_, ?_, ?_, ?_, collapse_case_row_snd t cutoff g₂,
    collapse_case_row_mem t cutoff g₂ hg₂⟩
  · rw [collapse_if_only_ending_differently]
    exact collapseByKey_totalCount _ t
  · rw [collapse_if_only_ending_differently]
    exact collapseByKey_pairwise _ t
  · exact collapse_case_totalCount t cutoff
  · exact collapse_case_pairwise t cutoff
  · rw [collapse_if_only_ending_differently]
    have h1 := collapseByKey_row_mem sentenceGroupKey t g hg
    rw [show totalCount (groupMembers sentenceGroupKey g (sort_values_desc t))
          = totalCount (groupMembers sentenceGroupKey g t) from by
        rw [groupMembers_sort_values_desc, totalCount_sort_values_desc]] at h1
    exact h1

/-- Witness for C2 on a three-row table with sentence group key "a" and
word-case group key "a!". -/
theorem claim_C2_witness :
    totalCount (collapse_if_only_ending_differently
        [("a!", 2), ("a", 1), ("b", 3)])
        = totalCount [("a!", 2), ("a", 1), ("b", 3)]
      ∧ (collapse_if_only_ending_differently
          [("a!", 2), ("a", 1), ("b", 3)]).Pairwise (fun a b => b.2 ≤ a.2)
      ∧ totalCount (collapse_case [("a!", 2), ("a", 1), ("b", 3)] (1 / 4))
          = totalCount [("a!", 2), ("a", 1), ("b", 3)]
      ∧ (collapse_case [("a!", 2), ("a", 1), ("b", 3)] (1 / 4)).Pairwise
          (fun a b => b.2 ≤ a.2)
      ∧ (((groupMembers sentenceGroupKey "a"
              (sort_values_desc [("a!", 2), ("a", 1), ("b", 3)])).headD ("", 0)).1,
            totalCount (groupMembers sentenceGroupKey "a"
              [("a!", 2), ("a", 1), ("b", 3)]))
          ∈ collapse_if_only_ending_differently [("a!", 2), ("a", 1), ("b", 3)]
      ∧ (collapse_case_row [("a!", 2), ("a", 1), ("b", 3)] (1 / 4) "a!").2
          = totalCount (groupMembers pyLower "a!" [("a!", 2), ("a", 1), ("b", 3)])
      ∧ collapse_case_row [("a!", 2), ("a", 1), ("b", 3)] (1 / 4) "a!"
          ∈ collapse_case [("a!", 2), ("a", 1), ("b", 3)] (1 / 4) :=
  claim_C2 [("a!", 2), ("a", 1), ("b", 3)] (1 / 4) "a" "a!" (by decide)
    (by decide)

/-- C6: for a non-Latin-script language any key containing an ASCII Latin
letter matches the noise pattern (in both modes); for every language a
nonempty key of punctuation, digits, underscores and spaces matches; and
the filter removes exactly the matching keys, leaving surviving rows (and
hence their counts) unchanged. -/
theorem claim_C6 (langcode langcode2 k k2 : String) (c : Char)
    (t : List (String × Nat)) (kv : String × Nat)
    (hlang : langcode ∈ non_latin_langs) (hc : c ∈ k.toList)
    (hlatin : ('a' ≤ c ∧ c ≤ 'z') ∨ ('A' ≤ c ∧ c ≤ 'Z'))
    (hk2ne : k2 ≠ "") (hk2 : ∀ c2 ∈ k2.toList, c2 ∈ pdsChars) :
    noiseSentence langcode k = true ∧ noiseWord langcode k = true
      ∧ noiseSentence langcode2 k2 = true ∧ noiseWord langcode2 k2 = true
      ∧ (kv ∈ noiseFilterSentences langcode t
            ↔ kv ∈ t ∧ noiseSentence langcode kv.1 = false)
      ∧ (kv ∈ noiseFilterWords langcode t
            ↔ kv ∈ t ∧ noiseWord langcode kv.1 = false) := by
  have hcont : non_latin_langs.contains langcode = true :=
    (contains_eq_true_iff _ _).2 hlang
  have hlat : k.toList.any isLatinChar = true :=
    List.any_eq_true.2 ⟨c, hc, isLatinChar_of_ascii c hlatin⟩
  have hpo : punctOnly k2 = true := punctOnly_of_pds k2 hk2ne hk2
  refine ⟨?_, ?_, ?_, ?_, ?_, ?_⟩
  · rw [noiseSentence, hcont, hlat]
    simp
  · rw [noiseWord, hcont, hlat]
    simp
  · rw [noiseSentence, hpo]
    simp
  · rw [noiseWord, hpo]
    simp
  · rw [noiseFilterSentences]
    simp [List.mem_filter]
  · rw [noiseFilterWords]
    simp [List.mem_filter]

/-- Witness for C6: Arabic with a Latin-lettered key; English with a
punctuation/digit key. -/
theorem claim_C6_witness :
    noiseSentence "ar" "aha\n" = true ∧ noiseWord "ar" "aha\n" = true
      ∧ noiseSentence "en" "123 _!" = true ∧ noiseWord "en" "123 _!" = true
      ∧ (("ok", 2) ∈ noiseFilterSentences "ar" [("ok", 2)]
            ↔ ("ok", 2) ∈ [("ok", 2)]
              ∧ noiseSentence "ar" ("ok", 2).1 = false)
      ∧ (("ok", 2) ∈ noiseFilterWords "ar" [("ok", 2)]
            ↔ ("ok", 2) ∈ [("ok", 2)]
              ∧ noiseWord "ar" ("ok", 2).1 = false) :=
  claim_C6 "ar" "en" "aha\n" "123 _!" 'a' [("ok", 2)] ("ok", 2)
    (by decide) (by decide) (by decide) (by decide) (by decide)

/-- C7: the exclusion list is applied to the already-sorted collapsed table
before `.head(n)`, so with enough surviving rows the output still has `n`
rows, remains count-descending, and exclusion promotes the next rank: the
spec's [A:100, B:90, C:80] example truncated to 2 with A excluded yields
[B:90, C:80]. -/
theorem claim_C7 (excl : List String) (t : List (String × Nat)) (n : Nat)
    (lines : List String) (langcode : String) (sdt : SourceDataType)
    (hn : n ≤ (t.filter (fun kv => !excl.contains kv.1)).length)
    (hsort : t.Pairwise (fun a b => b.2 ≤ a.2)) (hlines : lines ≠ []) :
    (rank_and_truncate excl n t).length = n
      ∧ rank_and_truncate excl n t
          = (t.filter (fun kv => !excl.contains kv.1)).take n
      ∧ (rank_and_truncate excl n t).Pairwise (fun a b => b.2 ≤ a.2)
      ∧ (parsedfile_to_top_sentences lines langcode sdt excl).output
          = some (rank_and_truncate excl n_top_sentences
              (sentenceCollapsed lines langcode sdt))
      ∧ rank_and_truncate ["A"] 2 [("A", 100), ("B", 90), ("C", 80)]
          = [("B", 90), ("C", 80)] := by
  refine ⟨?_, rfl, ?_, ?_, by decide⟩
  · rw [rank_and_truncate, List.length_take]
    omega
  · rw [rank_and_truncate]
    exact List.Pairwise.sublist (List.take_sublist _ _) (hsort.filter _)
  · rw [parsedfile_to_top_sentences, check_line_count,
      if_neg (fun h => hlines (List.length_eq_zero.1 h))]

/-- Witness for C7 at the spec's example, with a one-line corpus. -/
theorem claim_C7_witness :
    (rank_and_truncate ["A"] 2 [("A", 100), ("B", 90), ("C", 80)]).length = 2
      ∧ rank_and_truncate ["A"] 2 [("A", 100), ("B", 90), ("C", 80)]
          = ([("A", 100), ("B", 90), ("C", 80)].filter
              (fun kv => !(["A"].contains kv.1))).take 2
      ∧ (rank_and_truncate ["A"] 2
          [("A", 100), ("B", 90), ("C", 80)]).Pairwise (fun a b => b.2 ≤ a.2)
      ∧ (parsedfile_to_top_sentences ["x\n"] "en" .raw ["A"]).output
          = some (rank_and_truncate ["A"] n_top_sentences
              (sentenceCollapsed ["x\n"] "en" .raw))
      ∧ rank_and_truncate ["A"] 2 [("A", 100), ("B", 90), ("C", 80)]
          = [("B", 90), ("C", 80)] :=
  claim_C7 ["A"] [("A", 100), ("B", 90), ("C", 80)] 2 ["x\n"] "en" .raw
    (by decide) (by decide) (by decide)

/-- C3: the per-language total written to each summary table is the number
of corpus occurrences whose key survives empty-key removal and noise
filtering — computed before the minimum-count threshold (the totals make no
reference to it) — and the threshold then keeps exactly the rows of the
pre-threshold table whose count reaches the floor, unchanged. -/
theorem claim_C3 (lines : List String) (langcode : String)
    (sdt : SourceDataType) (excl : List String)
    (tok : List String → List String) (cutoff : ℚ) (kv : String × Nat)
    (h : lines ≠ []) :
    (parsedfile_to_top_sentences lines langcode sdt excl).totalEntry
        = some (((lines.map (chunkLineKey sdt)).filter
            (fun s => s != "" && !noiseSentence langcode s)).length)
      ∧ (parsedfile_to_top_words tok lines langcode cutoff).totalEntry
          = some (((wordChunks tok lines).flatten.filter
              (fun s => s != "" && !noiseWord langcode s)).length)
      ∧ (kv ∈ sentenceThresholded lines langcode sdt
            ↔ kv ∈ sentencePrefilter lines langcode sdt ∧ min_count ≤ kv.2)
      ∧ (kv ∈ wordThresholded tok lines langcode
            ↔ kv ∈ wordPrefilter tok lines langcode ∧ min_count ≤ kv.2) := by
  refine ⟨?_, ?_, mem_min_count_filter _ kv, mem_min_count_filter _ kv⟩
  · rw [parsedfile_to_top_sentences, check_line_count,
      if_neg (fun hh => h (List.length_eq_zero.1 hh))]
    refine congrArg some ?_
    rw [sentencePrefilter, noiseFilterSentences, freqTable,
      sentenceChunks_flatten _ _ _ (by decide)]
    exact totalCount_prefilter (lines.map (chunkLineKey sdt)) _
      (fun k => aggregateChunks_eq _ _ _ k (by decide)) (noiseSentence langcode)
  · rw [parsedfile_to_top_words, check_line_count,
      if_neg (fun hh => h (List.length_eq_zero.1 hh))]
    refine congrArg some ?_
    rw [wordPrefilter, noiseFilterWords, wordFreqTable]
    exact totalCount_prefilter ((wordChunks tok lines).flatten) _
      (fun k => counterOfChunks_eq _ k) (noiseWord langcode)

/-- Witness for C3 on a one-line corpus with the identity tokenizer. -/
theorem claim_C3_witness :
    (parsedfile_to_top_sentences ["x\n"] "en" .raw []).totalEntry
        = some (((["x\n"].map (chunkLineKey .raw)).filter
            (fun s => s != "" && !noiseSentence "en" s)).length)
      ∧ (parsedfile_to_top_words (fun c => c) ["x\n"] "en" (1 / 2)).totalEntry
          = some (((wordChunks (fun c => c) ["x\n"]).flatten.filter
              (fun s => s != "" && !noiseWord "en" s)).length)
      ∧ (("x\n", 7) ∈ sentenceThresholded ["x\n"] "en" .raw
            ↔ ("x\n", 7) ∈ sentencePrefilter ["x\n"] "en" .raw
              ∧ min_count ≤ ("x\n", 7).2)
      ∧ (("x\n", 7) ∈ wordThresholded (fun c => c) ["x\n"] "en"
            ↔ ("x\n", 7) ∈ wordPrefilter (fun c => c) ["x\n"] "en"
              ∧ min_count ≤ ("x\n", 7).2) :=
  claim_C3 ["x\n"] "en" .raw [] (fun c => c) (1 / 2) ("x\n", 7) (by decide)

/-- C4: collapsing the case group Run:70/run:30: at cutoff 0.5 the
highest-count member "Run" becomes canonical with summed count 100; at
cutoff 0.2 the lowercase member's share 0.3 exceeds the cutoff, so "run"
becomes canonical with summed count 100. -/
theorem claim_C4 :
    collapse_case [("Run", 70), ("run", 30)] (1 / 2) = [("Run", 100)]
      ∧ collapse_case [("Run", 70), ("run", 30)] (1 / 5) = [("run", 100)] := by
  constructor
  · rw [collapse_case, if_pos (rfl : (1 / 2 : ℚ) = 1 / 2)]
    decide
  · rw [collapse_case, if_neg (by norm_num : ¬((1 / 5 : ℚ) = 1 / 2))]
    have hgs : sortStrAsc (firstKeys ([("Run", 70), ("run", 30)].map
        (fun kv => pyLower kv.1))) = ["run"] := by decide
    rw [hgs, List.map_cons, List.map_nil]
    have hmem : groupMembers pyLower "run" [("Run", 70), ("run", 30)]
        = [("Run", 70), ("run", 30)] := by decide
    rw [hmem]
    have htc : totalCount [("Run", 70), ("run", 30)] = 100 := by decide
    have h30 : shareGT 30 100 (1 / 5) = true := by
      rw [shareGT]
      simp only [decide_eq_true_eq]
      norm_num
    have hany : [("Run", 70), ("run", 30)].any (fun kv =>
        kv.1 == "run" && shareGT kv.2 (totalCount [("Run", 70), ("run", 30)])
          (1 / 5)) = true := by
      rw [htc, List.any_cons, List.any_cons, List.any_nil,
        show (("Run" : String) == "run") = false from by decide,
        show (("run" : String) == "run") = true from by decide, h30]
      rfl
    rw [wordcase_by_cutoff, if_pos hany, htc]
    decide

end TopOpenSubtitles
